import Mathlib

/-!
Verification of the ORIGAMI tree core of the MetaLoki 2.0 repository:
the `composite`/`leaf` tree (include/origami/composite.hpp), the
`tree_iterator` traversal cursor (include/origami/tree_iterator.hpp), the
`accumulate_visitor` (include/origami/visitor.hpp), the `variant_visitor`
registry (include/origami/modern_visitor.hpp), and the `resource_manager`
teardown logic (examples/integration/complete_system_example.cpp).

The C++ templates are instantiated the way the repository's own tests do
(`composite<leaf<int>, composite<...>>`): a tree node is either a `leaf`
holding one integer value or a `composite` holding a name and an ordered
list of children stored by value (`std::vector<std::variant<...>>`).
-/

namespace MetaLoki

/-- A tree node: `leaf<T>` holds one value (`composite.hpp` line 55),
`composite` holds a name and an ordered child list (`composite.hpp` line 86,
fields `children_ : std::vector<std::variant<...>>` and `name_`). -/
inductive Node where
  | leaf (value : Int)
  | composite (name : String) (children : List Node)

/-- The child list of a node: `composite::children()` returns `children_`;
a leaf has no children (in the source, the iterator tests
`requires { node.children(); }`, which fails for leaves). -/
def childrenOf : Node → List Node
  | .leaf _ => []
  | .composite _ cs => cs

mutual
/-- Number of nodes in a subtree (measure used for termination). -/
def Node.size : Node → Nat
  | .leaf _ => 1
  | .composite _ cs => 1 + Node.sizeList cs
/-- Total number of nodes in a list of subtrees. -/
def Node.sizeList : List Node → Nat
  | [] => 0
  | c :: cs => Node.size c + Node.sizeList cs
end

theorem sizeList_append (l₁ l₂ : List Node) :
    Node.sizeList (l₁ ++ l₂) = Node.sizeList l₁ + Node.sizeList l₂ := by
  induction l₁ with
  | nil => simp [Node.sizeList]
  | cons c cs ih => simp [Node.sizeList, ih]; ring

theorem size_pos (t : Node) : 0 < t.size := by
  cases t <;> simp [Node.size]

theorem sizeList_childrenOf_lt (t : Node) : Node.sizeList (childrenOf t) < t.size := by
  cases t <;> simp [Node.size, Node.sizeList, childrenOf]

/-! ## Traversal-order specifications, written from the spec's words -/

mutual
/-- Second definition for the refinement claims, following the spec's words:
"Depth-first pre-order: visit a node, then recursively visit children
left-to-right before siblings." -/
def spec_preorder : Node → List Node
  | .leaf v => [.leaf v]
  | .composite n cs => .composite n cs :: spec_preorder_list cs
/-- Pre-order enumeration of a list of sibling subtrees, left-to-right. -/
def spec_preorder_list : List Node → List Node
  | [] => []
  | c :: cs => spec_preorder c ++ spec_preorder_list cs
end

mutual
/-- Second definition for the refinement claim C3, following the spec's words:
"Depth-first post-order: children fully visited before the parent is
reported." -/
def spec_postorder : Node → List Node
  | .leaf v => [.leaf v]
  | .composite n cs => spec_postorder_list cs ++ [.composite n cs]
/-- Post-order enumeration of a list of sibling subtrees, left-to-right. -/
def spec_postorder_list : List Node → List Node
  | [] => []
  | c :: cs => spec_postorder c ++ spec_postorder_list cs
end

theorem spec_preorder_eq (t : Node) :
    spec_preorder t = t :: spec_preorder_list (childrenOf t) := by
  cases t <;> simp [spec_preorder, childrenOf, spec_preorder_list]

theorem spec_preorder_list_append (l₁ l₂ : List Node) :
    spec_preorder_list (l₁ ++ l₂) = spec_preorder_list l₁ ++ spec_preorder_list l₂ := by
  induction l₁ with
  | nil => simp [spec_preorder_list]
  | cons c cs ih => simp [spec_preorder_list, ih]

/-! ## The `tree_iterator` cursor (include/origami/tree_iterator.hpp) -/

/-- `tree_iterator::traversal_order` (tree_iterator.hpp lines 24-28). -/
inductive traversal_order where
  | depth_first_preorder
  | depth_first_postorder
  | breadth_first

/-- The state of a `tree_iterator` (tree_iterator.hpp lines 30-35): the root
composite, the selected order, the DFS stack (head = `top()`) and the BFS
queue (head = `front()`).  The C++ stores `const variant_type*` pointers into
the (immutable-during-traversal) tree; we store the node values they point
to.  The `current_` cache only backs the reference returned by `next()` and
carries no further state, so it is omitted. -/
structure tree_iterator where
  root : Node
  order : traversal_order
  dfs_stack : List Node
  bfs_queue : List Node

/-- `tree_iterator::has_next` (tree_iterator.hpp lines 49-59). -/
def has_next (it : tree_iterator) : Bool :=
  match it.order with
  | .depth_first_preorder => !it.dfs_stack.isEmpty
  | .depth_first_postorder => !it.dfs_stack.isEmpty
  | .breadth_first => !it.bfs_queue.isEmpty

/-- `tree_iterator::next_dfs_preorder` (tree_iterator.hpp lines 144-159):
pop the top node; if it is a composite, push its children in reverse order
(so the head of the stack becomes the first child); return the popped node.
On a list-as-stack this is exactly replacing `t :: rest` by
`childrenOf t ++ rest`.  `none` models the undefined `top()` on an empty
stack, which the guarded `next()` never reaches. -/
def next_dfs_preorder (it : tree_iterator) : Option (Node × tree_iterator) :=
  match it.dfs_stack with
  | [] => none
  | t :: rest => some (t, { it with dfs_stack := childrenOf t ++ rest })

/-- `tree_iterator::next_dfs_postorder` (tree_iterator.hpp lines 161-165):
the source comments "simplified implementation" and just returns
`next_dfs_preorder()`. -/
def next_dfs_postorder (it : tree_iterator) : Option (Node × tree_iterator) :=
  next_dfs_preorder it

/-- `tree_iterator::next_bfs` (tree_iterator.hpp lines 167-182): pop the
queue front; if it is a composite, append its children in order to the back
of the queue; return the popped node. -/
def next_bfs (it : tree_iterator) : Option (Node × tree_iterator) :=
  match it.bfs_queue with
  | [] => none
  | f :: rest => some (f, { it with bfs_queue := rest ++ childrenOf f })

/-- `tree_iterator::next` (tree_iterator.hpp lines 62-77): throws
`"No more elements to iterate"` when `has_next()` is false, otherwise
dispatches on the traversal order. -/
def next (it : tree_iterator) : Except String (Node × tree_iterator) :=
  if has_next it then
    match it.order with
    | .depth_first_preorder =>
        (next_dfs_preorder it).elim (.error "No more elements to iterate") .ok
    | .depth_first_postorder =>
        (next_dfs_postorder it).elim (.error "No more elements to iterate") .ok
    | .breadth_first =>
        (next_bfs it).elim (.error "No more elements to iterate") .ok
  else
    .error "No more elements to iterate"

/-- `tree_iterator::initialize_traversal` (tree_iterator.hpp lines 123-142):
DFS modes push the root's children in reverse order onto the stack (head =
first child); BFS pushes them in order onto the queue. -/
def init_traversal (root : Node) (order : traversal_order) : tree_iterator :=
  match order with
  | .depth_first_preorder => ⟨root, order, childrenOf root, []⟩
  | .depth_first_postorder => ⟨root, order, childrenOf root, []⟩
  | .breadth_first => ⟨root, order, [], childrenOf root⟩

/-- The `tree_iterator` constructor (tree_iterator.hpp lines 39-46): stack
and queue start empty and `initialize_traversal()` runs only when the root
has children.  (The C++ also guards against a null root pointer; a cursor
is constructed over an existing composite here.) -/
def mk_tree_iterator (root : Node) (order : traversal_order) : tree_iterator :=
  if (childrenOf root).isEmpty then ⟨root, order, [], []⟩
  else init_traversal root order

/-- `tree_iterator::reset` (tree_iterator.hpp lines 110-120): clear both
containers and re-initialize when the root has children. -/
def tree_iterator.reset (it : tree_iterator) : tree_iterator :=
  mk_tree_iterator it.root it.order

/-- Number of pending tree nodes, the termination measure for the
`while (has_next()) next()` loop. -/
def iter_measure (it : tree_iterator) : Nat :=
  Node.sizeList it.dfs_stack + Node.sizeList it.bfs_queue

theorem next_dfs_preorder_measure {it it' : tree_iterator} {n : Node}
    (h : next_dfs_preorder it = some (n, it')) : iter_measure it' < iter_measure it := by
  unfold next_dfs_preorder at h
  cases hs : it.dfs_stack with
  | nil => simp [hs] at h
  | cons t rest =>
      simp [hs] at h
      obtain ⟨h1, h2⟩ := h
      subst h2
      simp [iter_measure, hs, sizeList_append, Node.sizeList]
      have := sizeList_childrenOf_lt t
      omega

theorem next_bfs_measure {it it' : tree_iterator} {n : Node}
    (h : next_bfs it = some (n, it')) : iter_measure it' < iter_measure it := by
  unfold next_bfs at h
  cases hs : it.bfs_queue with
  | nil => simp [hs] at h
  | cons f rest =>
      simp [hs] at h
      obtain ⟨h1, h2⟩ := h
      subst h2
      simp [iter_measure, hs, sizeList_append, Node.sizeList]
      have := sizeList_childrenOf_lt f
      omega

theorem next_ok_measure {it it' : tree_iterator} {n : Node}
    (h : next it = .ok (n, it')) : iter_measure it' < iter_measure it := by
  unfold next at h
  by_cases hn : has_next it
  · simp only [hn, if_true] at h
    cases horder : it.order
    · simp only [horder] at h
      cases hp : next_dfs_preorder it with
      | none => simp [hp] at h
      | some r =>
          simp [hp] at h
          subst h
          exact next_dfs_preorder_measure hp
    · simp only [horder] at h
      unfold next_dfs_postorder at h
      cases hp : next_dfs_preorder it with
      | none => simp [hp] at h
      | some r =>
          simp [hp] at h
          subst h
          exact next_dfs_preorder_measure hp
    · simp only [horder] at h
      cases hp : next_bfs it with
      | none => simp [hp] at h
      | some r =>
          simp [hp] at h
          subst h
          exact next_bfs_measure hp
  · simp [hn] at h

/-- The sequence of elements produced by repeatedly calling `next()` until
`has_next()` is false — the visitation sequence of
`tree_iterator::for_each` (tree_iterator.hpp lines 80-88). -/
def iter_list (it : tree_iterator) : List Node :=
  match hstep : next it with
  | .error _ => []
  | .ok (n, it') => n :: iter_list it'
termination_by iter_measure it
decreasing_by
  exact next_ok_measure hstep

/-! ## Pure worklist forms of the two traversal loops -/

/-- The DFS loop acting on the stack alone: pop, push children (in reverse,
so they appear in order at the head), emit. -/
def dfs_run : List Node → List Node
  | [] => []
  | t :: rest => t :: dfs_run (childrenOf t ++ rest)
termination_by l => Node.sizeList l
decreasing_by
  simp only [sizeList_append, Node.sizeList]
  exact Nat.add_lt_add_right (sizeList_childrenOf_lt _) _

/-- The BFS loop acting on the queue alone: pop the front, append children
at the back, emit. -/
def bfs_run : List Node → List Node
  | [] => []
  | f :: rest => f :: bfs_run (rest ++ childrenOf f)
termination_by l => Node.sizeList l
decreasing_by
  simp only [sizeList_append, Node.sizeList]
  rw [Nat.add_comm]
  exact Nat.add_lt_add_right (sizeList_childrenOf_lt _) _

theorem dfs_run_eq_spec : ∀ l : List Node, dfs_run l = spec_preorder_list l
  | [] => by simp [dfs_run, spec_preorder_list]
  | t :: rest => by
    rw [dfs_run, dfs_run_eq_spec (childrenOf t ++ rest), spec_preorder_list_append]
    cases t <;> simp [childrenOf, spec_preorder, spec_preorder_list]
termination_by l => Node.sizeList l
decreasing_by
  simp only [sizeList_append, Node.sizeList]
  exact Nat.add_lt_add_right (sizeList_childrenOf_lt _) _

theorem bfs_run_perm_spec : ∀ l : List Node, (bfs_run l).Perm (spec_preorder_list l)
  | [] => by simp [bfs_run, spec_preorder_list]
  | t :: rest => by
    rw [bfs_run, spec_preorder_list, spec_preorder_eq]
    refine List.Perm.cons t ?_
    refine (bfs_run_perm_spec (rest ++ childrenOf t)).trans ?_
    rw [spec_preorder_list_append]
    exact List.perm_append_comm
termination_by l => Node.sizeList l
decreasing_by
  simp only [sizeList_append, Node.sizeList]
  rw [Nat.add_comm]
  exact Nat.add_lt_add_right (sizeList_childrenOf_lt _) _

/-! ## `iter_list` computes `dfs_run` / `bfs_run` on the pending container -/

theorem iter_list_error {it : tree_iterator} {e : String}
    (h : next it = .error e) : iter_list it = [] := by
  rw [iter_list]
  split
  · rfl
  · rename_i n it' heq
    rw [h] at heq
    exact absurd heq (by simp)

theorem iter_list_ok {it it' : tree_iterator} {n : Node}
    (h : next it = .ok (n, it')) : iter_list it = n :: iter_list it' := by
  rw [iter_list]
  split
  · rename_i e heq
    rw [h] at heq
    exact absurd heq (by simp)
  · rename_i m jt heq
    rw [h] at heq
    cases heq
    rfl

/-- In a depth-first mode, `next` on a non-empty stack pops the top node and
pushes its children. -/
theorem next_dfs_cons {it : tree_iterator} {t : Node} {rest : List Node}
    (ho : it.order = .depth_first_preorder ∨ it.order = .depth_first_postorder)
    (hs : it.dfs_stack = t :: rest) :
    next it = .ok (t, { it with dfs_stack := childrenOf t ++ rest }) := by
  rcases ho with ho | ho <;>
    simp [next, has_next, ho, hs, next_dfs_preorder, next_dfs_postorder]

theorem next_dfs_nil {it : tree_iterator}
    (ho : it.order = .depth_first_preorder ∨ it.order = .depth_first_postorder)
    (hs : it.dfs_stack = []) :
    next it = .error "No more elements to iterate" := by
  rcases ho with ho | ho <;> simp [next, has_next, ho, hs]

theorem next_bfs_cons {it : tree_iterator} {f : Node} {rest : List Node}
    (ho : it.order = .breadth_first) (hs : it.bfs_queue = f :: rest) :
    next it = .ok (f, { it with bfs_queue := rest ++ childrenOf f }) := by
  simp [next, has_next, ho, hs, next_bfs]

theorem next_bfs_nil {it : tree_iterator}
    (ho : it.order = .breadth_first) (hs : it.bfs_queue = []) :
    next it = .error "No more elements to iterate" := by
  simp [next, has_next, ho, hs]

theorem iter_list_dfs : ∀ (s : List Node) (it : tree_iterator),
    it.dfs_stack = s →
    (it.order = .depth_first_preorder ∨ it.order = .depth_first_postorder) →
    iter_list it = dfs_run s
  | [], it, hs, ho => by
      rw [iter_list_error (next_dfs_nil ho hs), dfs_run]
  | t :: rest, it, hs, ho => by
      rw [iter_list_ok (next_dfs_cons ho hs), dfs_run]
      exact congrArg (t :: ·)
        (iter_list_dfs (childrenOf t ++ rest)
          { it with dfs_stack := childrenOf t ++ rest } rfl ho)
termination_by s => Node.sizeList s
decreasing_by
  simp only [sizeList_append, Node.sizeList]
  exact Nat.add_lt_add_right (sizeList_childrenOf_lt _) _

theorem iter_list_bfs : ∀ (q : List Node) (it : tree_iterator),
    it.bfs_queue = q → it.order = .breadth_first →
    iter_list it = bfs_run q
  | [], it, hs, ho => by
      rw [iter_list_error (next_bfs_nil ho hs), bfs_run]
  | f :: rest, it, hs, ho => by
      rw [iter_list_ok (next_bfs_cons ho hs), bfs_run]
      exact congrArg (f :: ·)
        (iter_list_bfs (rest ++ childrenOf f)
          { it with bfs_queue := rest ++ childrenOf f } rfl ho)
termination_by q => Node.sizeList q
decreasing_by
  simp only [sizeList_append, Node.sizeList]
  rw [Nat.add_comm]
  exact Nat.add_lt_add_right (sizeList_childrenOf_lt _) _

/-- For every traversal mode, the cursor built by the constructor produces
`dfs_run`/`bfs_run` of the root's child list. -/
theorem iter_list_mk (root : Node) :
    iter_list (mk_tree_iterator root .depth_first_preorder)
      = dfs_run (childrenOf root)
    ∧ iter_list (mk_tree_iterator root .depth_first_postorder)
      = dfs_run (childrenOf root)
    ∧ iter_list (mk_tree_iterator root .breadth_first)
      = bfs_run (childrenOf root) := by
  unfold mk_tree_iterator init_traversal
  by_cases hc : (childrenOf root).isEmpty
  · rw [List.isEmpty_iff] at hc
    simp only [hc, List.isEmpty_nil, if_true]
    refine ⟨?_, ?_, ?_⟩
    · exact iter_list_dfs [] _ rfl (Or.inl rfl)
    · exact iter_list_dfs [] _ rfl (Or.inr rfl)
    · exact iter_list_bfs [] _ rfl rfl
  · simp only [hc, if_false]
    refine ⟨?_, ?_, ?_⟩
    · exact iter_list_dfs (childrenOf root) _ rfl (Or.inl rfl)
    · exact iter_list_dfs (childrenOf root) _ rfl (Or.inr rfl)
    · exact iter_list_bfs (childrenOf root) _ rfl rfl

theorem next_of_has_next {it : tree_iterator} (h : has_next it = true) :
    ∃ r, next it = .ok r := by
  cases horder : it.order
  · rw [has_next, horder] at h
    cases hs : it.dfs_stack with
    | nil => simp [hs] at h
    | cons t rest => exact ⟨_, next_dfs_cons (Or.inl horder) hs⟩
  · rw [has_next, horder] at h
    cases hs : it.dfs_stack with
    | nil => simp [hs] at h
    | cons t rest => exact ⟨_, next_dfs_cons (Or.inr horder) hs⟩
  · rw [has_next, horder] at h
    cases hs : it.bfs_queue with
    | nil => simp [hs] at h
    | cons f rest => exact ⟨_, next_bfs_cons horder hs⟩

theorem next_of_not_has_next {it : tree_iterator} (h : has_next it = false) :
    next it = .error "No more elements to iterate" := by
  rw [next, h]
  simp

/-! ## Claim theorems C1-C3 -/

/-- C1: for every cursor, in any traversal mode, `has_next()` is false
exactly when the pending container — the DFS stack in the depth-first modes,
the BFS queue in breadth-first mode — is empty; `next()` throws exactly when
`has_next()` is false; and a cursor constructed over a composite with no
children has `has_next()` false immediately and `next()` throws rather than
returning a value. -/
theorem metaloki_C1_has_next_next_contract
    (it : tree_iterator) (root : Node) (order : traversal_order) :
    (has_next it = false ↔
      (match it.order with
        | .breadth_first => it.bfs_queue = []
        | _ => it.dfs_stack = []))
    ∧ ((∃ e, next it = .error e) ↔ has_next it = false)
    ∧ (childrenOf root = [] →
        has_next (mk_tree_iterator root order) = false
        ∧ ∃ e, next (mk_tree_iterator root order) = .error e) := by
  refine ⟨?_, ⟨?_, ?_⟩, ?_⟩
  · cases horder : it.order <;> simp [has_next, horder, List.isEmpty_iff]
  · rintro ⟨e, he⟩
    by_contra hcon
    rw [Bool.not_eq_false] at hcon
    obtain ⟨r, hr⟩ := next_of_has_next hcon
    rw [he] at hr
    exact absurd hr (by simp)
  · intro h
    exact ⟨_, next_of_not_has_next h⟩
  · intro hroot
    have hempty : mk_tree_iterator root order = ⟨root, order, [], []⟩ := by
      rw [mk_tree_iterator, hroot]
      simp
    have hfalse : has_next (mk_tree_iterator root order) = false := by
      rw [hempty]
      cases order <;> simp [has_next]
    exact ⟨hfalse, _, next_of_not_has_next hfalse⟩

/-- Checks C1 at a concrete input: a cursor over the childless composite
`Composite "Empty" []` (any mode) reports `has_next() = false` and `next()`
throws. -/
theorem metaloki_C1_witness :
    childrenOf (Node.composite "Empty" []) = []
    ∧ has_next (mk_tree_iterator (Node.composite "Empty" [])
        traversal_order.depth_first_preorder) = false
    ∧ ∃ e, next (mk_tree_iterator (Node.composite "Empty" [])
        traversal_order.depth_first_preorder) = .error e :=
  ⟨rfl,
    (metaloki_C1_has_next_next_contract
      (mk_tree_iterator (Node.composite "Empty" []) traversal_order.depth_first_preorder)
      (Node.composite "Empty" []) traversal_order.depth_first_preorder).2.2 rfl⟩

/-- C2: a cursor in `depth_first_preorder` mode enumerates exactly the
pre-order depth-first sequence of the root's child subtrees — each node
before its descendants, children left-to-right before later siblings (the
sequence `spec_preorder_list`, written from the spec's wording). -/
theorem metaloki_C2_preorder (root : Node) :
    iter_list (mk_tree_iterator root .depth_first_preorder)
      = spec_preorder_list (childrenOf root) := by
  rw [(iter_list_mk root).1, dfs_run_eq_spec]

/-- The nested example tree from the repository's own integration test
("Root Document" containing `leaf(10)` then a nested section containing
`leaf(20)`). -/
def nested_tree : Node :=
  .composite "Root" [.leaf 10, .composite "Section 1" [.leaf 20]]

/-- C3: for every tree, the `depth_first_postorder` cursor produces
element-for-element the same sequence as the `depth_first_preorder` cursor
(the source collapses post-order to pre-order), and on the nested example
tree that sequence differs from genuine post-order
(`spec_postorder_list`, children fully visited before their parent). -/
theorem metaloki_C3_postorder_is_preorder :
    (∀ root : Node,
      iter_list (mk_tree_iterator root .depth_first_postorder)
        = iter_list (mk_tree_iterator root .depth_first_preorder))
    ∧ iter_list (mk_tree_iterator nested_tree .depth_first_postorder)
        ≠ spec_postorder_list (childrenOf nested_tree) := by
  constructor
  · intro root
    rw [(iter_list_mk root).1, (iter_list_mk root).2.1]
  · rw [(iter_list_mk nested_tree).2.1]
    intro h
    simp [nested_tree, childrenOf, dfs_run, spec_postorder_list, spec_postorder] at h

/-! ## Breadth-first level order (C4) -/

/-- `n` sits at depth `d` below `root`: depth 1 are the root's immediate
children, depth `d + 1` the children of a depth-`d` node. -/
inductive at_depth (root : Node) : Nat → Node → Prop where
  | child {c : Node} : c ∈ childrenOf root → at_depth root 1 c
  | nest {d : Nat} {p c : Node} :
      at_depth root d p → c ∈ childrenOf p → at_depth root (d + 1) c

/-- The BFS queue loop of `next_bfs`, with every pending node tagged by its
depth below the root: popping a depth-`d` node appends its children tagged
`d + 1`. -/
def bfs_run_tagged : List (Nat × Node) → List (Nat × Node)
  | [] => []
  | (d, f) :: rest =>
      (d, f) :: bfs_run_tagged (rest ++ (childrenOf f).map (fun c => (d + 1, c)))
termination_by l => Node.sizeList (l.map Prod.snd)
decreasing_by
  simp only [List.map_append, List.map_map, List.map_cons, sizeList_append, Node.sizeList]
  have h1 : (childrenOf f).map (Prod.snd ∘ fun c => (d + 1, c)) = childrenOf f := by
    simp [Function.comp]
  rw [h1, Nat.add_comm]
  exact Nat.add_lt_add_right (sizeList_childrenOf_lt _) _

/-- The initial tagged queue: the root's children, each at depth 1. -/
def bfs_tagged_init (root : Node) : List (Nat × Node) :=
  (childrenOf root).map (fun c => (1, c))

theorem bfs_run_tagged_snd : ∀ l : List (Nat × Node),
    (bfs_run_tagged l).map Prod.snd = bfs_run (l.map Prod.snd)
  | [] => by simp [bfs_run_tagged, bfs_run]
  | (d, f) :: rest => by
      rw [bfs_run_tagged]
      simp only [List.map_cons]
      rw [bfs_run, bfs_run_tagged_snd (rest ++ (childrenOf f).map (fun c => (d + 1, c)))]
      simp [Function.comp]
termination_by l => Node.sizeList (l.map Prod.snd)
decreasing_by
  simp only [List.map_append, List.map_map, List.map_cons, sizeList_append, Node.sizeList]
  have h1 : (childrenOf f).map (Prod.snd ∘ fun c => (d + 1, c)) = childrenOf f := by
    simp [Function.comp]
  rw [h1, Nat.add_comm]
  exact Nat.add_lt_add_right (sizeList_childrenOf_lt _) _

theorem bfs_run_tagged_lb : ∀ (l : List (Nat × Node)) (c : Nat),
    (∀ p ∈ l, c ≤ p.1) → ∀ q ∈ bfs_run_tagged l, c ≤ q.1
  | [], _, _ => by simp [bfs_run_tagged]
  | (d, f) :: rest, c, hc => by
      rw [bfs_run_tagged]
      intro q hq
      rcases List.mem_cons.mp hq with hq | hq
      · subst hq
        exact hc (d, f) (List.mem_cons_self _ _)
      · refine bfs_run_tagged_lb _ c ?_ q hq
        intro p hp
        rcases List.mem_append.mp hp with hp | hp
        · exact hc p (List.mem_cons_of_mem _ hp)
        · obtain ⟨x, _, rfl⟩ := List.mem_map.mp hp
          have := hc (d, f) (List.mem_cons_self _ _)
          simp only at this ⊢
          omega
termination_by l => Node.sizeList (l.map Prod.snd)
decreasing_by
  simp only [List.map_append, List.map_map, List.map_cons, sizeList_append, Node.sizeList]
  have h1 : (childrenOf f).map (Prod.snd ∘ fun c => (d + 1, c)) = childrenOf f := by
    simp [Function.comp]
  rw [h1, Nat.add_comm]
  exact Nat.add_lt_add_right (sizeList_childrenOf_lt _) _

theorem bfs_run_tagged_sorted : ∀ l : List (Nat × Node),
    (l.map Prod.fst).Sorted (· ≤ ·) →
    (∀ x ∈ l, ∀ y ∈ l, y.1 ≤ x.1 + 1) →
    ((bfs_run_tagged l).map Prod.fst).Sorted (· ≤ ·)
  | [], _, _ => by simp [bfs_run_tagged]
  | (d, f) :: rest, hsort, hband => by
      rw [bfs_run_tagged]
      have hrest_lo : ∀ p ∈ rest, d ≤ p.1 := by
        intro p hp
        have := (List.sorted_cons.mp (by simpa using hsort)).1 p.1
          (List.mem_map.mpr ⟨p, hp, rfl⟩)
        exact this
      have hrest_hi : ∀ p ∈ rest, p.1 ≤ d + 1 := by
        intro p hp
        simpa using hband (d, f) (List.mem_cons_self _ _) p (List.mem_cons_of_mem _ hp)
      have hnew_lo : ∀ p ∈ rest ++ (childrenOf f).map (fun c => (d + 1, c)), d ≤ p.1 := by
        intro p hp
        rcases List.mem_append.mp hp with hp | hp
        · exact hrest_lo p hp
        · obtain ⟨x, _, rfl⟩ := List.mem_map.mp hp
          simp only
          omega
      refine List.sorted_cons.mpr ⟨?_, ?_⟩
      · intro b hb
        obtain ⟨q, hq, rfl⟩ := List.mem_map.mp hb
        exact bfs_run_tagged_lb _ d hnew_lo q hq
      · refine bfs_run_tagged_sorted _ ?_ ?_
        · rw [List.map_append, List.map_map]
          refine (List.pairwise_append).mpr ⟨?_, ?_, ?_⟩
          · exact (List.sorted_cons.mp (by simpa using hsort)).2
          · have : (childrenOf f).map (Prod.fst ∘ fun c => (d + 1, c))
                = (childrenOf f).map (fun _ => d + 1) := by
              simp [Function.comp]
            rw [this]
            exact List.pairwise_of_forall_mem_list (by
              intro a ha b hb
              obtain ⟨x, _, rfl⟩ := List.mem_map.mp ha
              obtain ⟨y, _, rfl⟩ := List.mem_map.mp hb
              exact le_refl (d + 1))
          · intro a ha b hb
            obtain ⟨p, hp, rfl⟩ := List.mem_map.mp ha
            obtain ⟨x, _, rfl⟩ := List.mem_map.mp hb
            have := hrest_hi p hp
            simp only [Function.comp_apply] at this ⊢
            omega
        · intro x hx y hy
          have hy1 : y.1 ≤ d + 1 := by
            rcases List.mem_append.mp hy with hy | hy
            · exact hrest_hi y hy
            · obtain ⟨c, _, rfl⟩ := List.mem_map.mp hy
              simp only
              omega
          have hx1 : d ≤ x.1 := hnew_lo x hx
          omega
termination_by l => Node.sizeList (l.map Prod.snd)
decreasing_by
  simp only [List.map_append, List.map_map, List.map_cons, sizeList_append, Node.sizeList]
  have h1 : (childrenOf f).map (Prod.snd ∘ fun c => (d + 1, c)) = childrenOf f := by
    simp [Function.comp]
  rw [h1, Nat.add_comm]
  exact Nat.add_lt_add_right (sizeList_childrenOf_lt _) _

theorem bfs_run_tagged_at_depth : ∀ (l : List (Nat × Node)) (root : Node),
    (∀ p ∈ l, at_depth root p.1 p.2) →
    ∀ q ∈ bfs_run_tagged l, at_depth root q.1 q.2
  | [], _, _ => by simp [bfs_run_tagged]
  | (d, f) :: rest, root, hl => by
      rw [bfs_run_tagged]
      intro q hq
      rcases List.mem_cons.mp hq with hq | hq
      · subst hq
        exact hl (d, f) (List.mem_cons_self _ _)
      · refine bfs_run_tagged_at_depth _ root ?_ q hq
        intro p hp
        rcases List.mem_append.mp hp with hp | hp
        · exact hl p (List.mem_cons_of_mem _ hp)
        · obtain ⟨c, hc, rfl⟩ := List.mem_map.mp hp
          exact at_depth.nest (hl (d, f) (List.mem_cons_self _ _)) hc
termination_by l => Node.sizeList (l.map Prod.snd)
decreasing_by
  simp only [List.map_append, List.map_map, List.map_cons, sizeList_append, Node.sizeList]
  have h1 : (childrenOf f).map (Prod.snd ∘ fun c => (d + 1, c)) = childrenOf f := by
    simp [Function.comp]
  rw [h1, Nat.add_comm]
  exact Nat.add_lt_add_right (sizeList_childrenOf_lt _) _

/-- C4: the breadth-first cursor visits nodes level by level.  Its output is
the node component of the depth-tagged BFS run seeded with the root's
children at depth 1; in that run the depth tags are non-decreasing (so every
node at depth `d` is produced before any node at depth `d + 1`), every tag is
the genuine depth of the node below the root, and the output enumerates
exactly the nodes that the pre-order enumeration of the root's child
subtrees contains (as a permutation). -/
theorem metaloki_C4_bfs_level_order (root : Node) :
    iter_list (mk_tree_iterator root .breadth_first)
      = (bfs_run_tagged (bfs_tagged_init root)).map Prod.snd
    ∧ ((bfs_run_tagged (bfs_tagged_init root)).map Prod.fst).Sorted (· ≤ ·)
    ∧ (∀ q ∈ bfs_run_tagged (bfs_tagged_init root), at_depth root q.1 q.2)
    ∧ (iter_list (mk_tree_iterator root .breadth_first)).Perm
        (spec_preorder_list (childrenOf root)) := by
  have hsnd : (bfs_run_tagged (bfs_tagged_init root)).map Prod.snd
      = bfs_run (childrenOf root) := by
    rw [bfs_run_tagged_snd, bfs_tagged_init, List.map_map]
    have : (childrenOf root).map (Prod.snd ∘ fun c => (1, c)) = childrenOf root := by
      simp [Function.comp]
    rw [this]
  refine ⟨?_, ?_, ?_, ?_⟩
  · rw [(iter_list_mk root).2.2, hsnd]
  · refine bfs_run_tagged_sorted _ ?_ ?_
    · rw [bfs_tagged_init, List.map_map]
      exact List.pairwise_of_forall_mem_list (by
        intro a ha b hb
        obtain ⟨x, _, rfl⟩ := List.mem_map.mp ha
        obtain ⟨y, _, rfl⟩ := List.mem_map.mp hb
        exact le_refl 1)
    · intro x hx y hy
      rw [bfs_tagged_init] at hx hy
      obtain ⟨a, _, rfl⟩ := List.mem_map.mp hx
      obtain ⟨b, _, rfl⟩ := List.mem_map.mp hy
      simp only
      omega
  · refine bfs_run_tagged_at_depth _ root ?_
    intro p hp
    rw [bfs_tagged_init] at hp
    obtain ⟨c, hc, rfl⟩ := List.mem_map.mp hp
    exact at_depth.child hc
  · rw [(iter_list_mk root).2.2]
    exact bfs_run_perm_spec (childrenOf root)

/-! ## The accumulating visitor (include/origami/visitor.hpp, lines 91-124)
driven through a traversal (the repository's "Iterator + Visitor
Integration" test, tests/integration/test_complete_origami_integration.cpp
lines 84-116). -/

mutual
/-- `accumulate_visitor<int>::visit` on one element, acting on the
accumulated value: the leaf overload (visitor.hpp lines 100-103) adds the
leaf's value; the composite overload (lines 106-119) re-dispatches
`visit` on every child in order via `accept_visitor` and adds nothing for
the composite itself. -/
def acc_visit (acc : Int) : Node → Int
  | .leaf v => acc + v
  | .composite _ cs => acc_visit_children acc cs
/-- The child loop of the composite overload of `accumulate_visitor::visit`. -/
def acc_visit_children (acc : Int) : List Node → Int
  | [] => acc
  | c :: cs => acc_visit_children (acc_visit acc c) cs
end

mutual
/-- Sum of the leaf values of a subtree (spec: "for each Element of numeric
type encountered, result := result ⊕ value ... CompositeNode nodes
contribute nothing directly"). -/
def leaf_total : Node → Int
  | .leaf v => v
  | .composite _ cs => leaf_total_list cs
/-- Sum of the leaf values under a list of subtrees. -/
def leaf_total_list : List Node → Int
  | [] => 0
  | c :: cs => leaf_total c + leaf_total_list cs
end

mutual
theorem acc_visit_eq : ∀ (t : Node) (acc : Int),
    acc_visit acc t = acc + leaf_total t
  | .leaf v, acc => by simp [acc_visit, leaf_total]
  | .composite n cs, acc => by
      simp [acc_visit, leaf_total, acc_visit_children_eq cs acc]
theorem acc_visit_children_eq : ∀ (cs : List Node) (acc : Int),
    acc_visit_children acc cs = acc + leaf_total_list cs
  | [], acc => by simp [acc_visit_children, leaf_total_list]
  | c :: cs, acc => by
      simp only [acc_visit_children, leaf_total_list]
      rw [acc_visit_eq c acc, acc_visit_children_eq cs (acc + leaf_total c)]
      ring
end

/-- Driving a freshly constructed (or `reset`) `accumulate_visitor` over a
cursor, the way the repository's Iterator + Visitor integration test does:
`for_each` hands every produced element to the visitor
(`item.accept_visitor(visitor)`, i.e. the matching `visit` overload), the
accumulated value starting from `int{} = 0`. -/
def drive_accumulate (it : tree_iterator) : Int :=
  (iter_list it).foldl acc_visit 0

theorem foldl_acc_visit (l : List Node) (a : Int) :
    l.foldl acc_visit a = a + (l.map leaf_total).sum := by
  induction l generalizing a with
  | nil => simp
  | cons c cs ih =>
      simp only [List.foldl_cons, List.map_cons, List.sum_cons]
      rw [ih (acc_visit a c), acc_visit_eq]
      ring

/-- The flat example tree of the spec's testable property: three integer
leaves 10, 20, 30 added directly to the root, no nesting. -/
def flat_tree : Node :=
  .composite "Root" [.leaf 10, .leaf 20, .leaf 30]

/-- C5: driving the accumulating visitor over a pre-order depth-first
traversal of the flat [10, 20, 30] tree accumulates 60; and a composite
handed to `accumulate_visitor::visit` contributes nothing of its own —
the result is the old accumulator plus exactly the leaf values below it. -/
theorem metaloki_C5_flat_sum_60 :
    drive_accumulate (mk_tree_iterator flat_tree .depth_first_preorder) = 60
    ∧ ∀ (acc : Int) (name : String) (cs : List Node),
        acc_visit acc (.composite name cs) = acc + leaf_total_list cs := by
  constructor
  · rw [drive_accumulate, (iter_list_mk flat_tree).1]
    simp [flat_tree, childrenOf, dfs_run, acc_visit]
  · intro acc name cs
    rw [acc_visit, acc_visit_children_eq]

/-- C6 counterexample: on the nested tree (root holding `leaf(10)` and a
section composite holding `leaf(20)`), driving the accumulating visitor over
the pre-order cursor and (after reset) over the breadth-first cursor yields
50 in both cases — not the claimed 30.  The iterator produces the nested
composite *and* its leaf, and the composite overload of
`accumulate_visitor::visit` already adds the nested leaf, so leaf(20) is
counted twice. -/
theorem metaloki_C6_counterexample :
    drive_accumulate (mk_tree_iterator nested_tree .depth_first_preorder) = 50
    ∧ drive_accumulate (mk_tree_iterator nested_tree .breadth_first) = 50
    ∧ drive_accumulate (mk_tree_iterator nested_tree .depth_first_preorder) ≠ 30 := by
  refine ⟨?_, ?_, ?_⟩
  · rw [drive_accumulate, (iter_list_mk nested_tree).1]
    simp [nested_tree, childrenOf, dfs_run, acc_visit, acc_visit_children]
  · rw [drive_accumulate, (iter_list_mk nested_tree).2.2]
    simp [nested_tree, childrenOf, bfs_run, acc_visit, acc_visit_children]
  · rw [drive_accumulate, (iter_list_mk nested_tree).1]
    simp [nested_tree, childrenOf, dfs_run, acc_visit, acc_visit_children]

/-- C6 (amended): for every tree, driving the accumulating visitor over a
pre-order cursor and (after reset) over a breadth-first cursor yields the
same accumulated result — on the nested example tree that common result is
50, not 30, because each nested leaf is accumulated twice (once through its
parent composite's `visit`, once when the iterator produces the leaf). -/
theorem metaloki_C6_same_sum_both_orders :
    (∀ root : Node,
      drive_accumulate (mk_tree_iterator root .depth_first_preorder)
        = drive_accumulate (mk_tree_iterator root .breadth_first))
    ∧ drive_accumulate (mk_tree_iterator nested_tree .depth_first_preorder) = 50
    ∧ drive_accumulate (mk_tree_iterator nested_tree .breadth_first) = 50 := by
  refine ⟨?_, ?_, ?_⟩
  · intro root
    rw [drive_accumulate, drive_accumulate, (iter_list_mk root).1, (iter_list_mk root).2.2,
      foldl_acc_visit, foldl_acc_visit]
    have hperm : (bfs_run (childrenOf root)).Perm (dfs_run (childrenOf root)) := by
      rw [dfs_run_eq_spec]
      exact bfs_run_perm_spec (childrenOf root)
    rw [List.Perm.sum_eq (hperm.map leaf_total)]
  · rw [drive_accumulate, (iter_list_mk nested_tree).1]
    simp [nested_tree, childrenOf, dfs_run, acc_visit, acc_visit_children]
  · rw [drive_accumulate, (iter_list_mk nested_tree).2.2]
    simp [nested_tree, childrenOf, bfs_run, acc_visit, acc_visit_children]

/-! ## C10: the root itself is never produced -/

mutual
theorem mem_spec_preorder_size : ∀ (t x : Node),
    x ∈ spec_preorder t → Node.size x ≤ Node.size t
  | .leaf v, x, hx => by
      simp [spec_preorder] at hx
      subst hx
      exact le_refl _
  | .composite n cs, x, hx => by
      rw [spec_preorder] at hx
      rcases List.mem_cons.mp hx with hx | hx
      · subst hx; exact le_refl _
      · have := mem_spec_preorder_list_size cs x hx
        simp [Node.size]
        omega
theorem mem_spec_preorder_list_size : ∀ (cs : List Node) (x : Node),
    x ∈ spec_preorder_list cs → Node.size x ≤ Node.sizeList cs
  | [], x, hx => by simp [spec_preorder_list] at hx
  | c :: cs, x, hx => by
      rw [spec_preorder_list] at hx
      rcases List.mem_append.mp hx with hx | hx
      · have := mem_spec_preorder_size c x hx
        simp [Node.sizeList]
        omega
      · have := mem_spec_preorder_list_size cs x hx
        simp [Node.sizeList]
        omega
end

/-- C10: in every traversal mode, the cursor enumerates exactly the root's
proper descendants — its output is a permutation of the pre-order
enumeration of the root's child subtrees (and never contains the root
itself), and a cursor over a childless root enumerates nothing. -/
theorem metaloki_C10_root_not_produced (root : Node) (order : traversal_order) :
    (iter_list (mk_tree_iterator root order)).Perm
        (spec_preorder_list (childrenOf root))
    ∧ root ∉ iter_list (mk_tree_iterator root order)
    ∧ (childrenOf root = [] → iter_list (mk_tree_iterator root order) = []) := by
  have hperm : (iter_list (mk_tree_iterator root order)).Perm
      (spec_preorder_list (childrenOf root)) := by
    cases order
    · rw [(iter_list_mk root).1, dfs_run_eq_spec]
    · rw [(iter_list_mk root).2.1, dfs_run_eq_spec]
    · rw [(iter_list_mk root).2.2]
      exact bfs_run_perm_spec (childrenOf root)
  refine ⟨hperm, ?_, ?_⟩
  · intro hmem
    have hmem' : root ∈ spec_preorder_list (childrenOf root) := hperm.mem_iff.mp hmem
    have hsz := mem_spec_preorder_list_size (childrenOf root) root hmem'
    have := sizeList_childrenOf_lt root
    omega
  · intro hempty
    have h0 : spec_preorder_list (childrenOf root) = [] := by
      rw [hempty]
      simp [spec_preorder_list]
    exact List.Perm.eq_nil (h0 ▸ hperm)

/-- Checks C10 at a concrete input: a breadth-first cursor over the
childless composite `Composite "Leaves" []` enumerates nothing. -/
theorem metaloki_C10_witness :
    childrenOf (Node.composite "Leaves" []) = []
    ∧ iter_list (mk_tree_iterator (Node.composite "Leaves" [])
        traversal_order.breadth_first) = [] :=
  ⟨rfl, (metaloki_C10_root_not_produced (Node.composite "Leaves" [])
    traversal_order.breadth_first).2.2 rfl⟩

/-! ## The `variant_visitor` registry (include/origami/modern_visitor.hpp),
instantiated as the repository's modern-visitor example does with the two
element kinds `leaf<int>` and `leaf<std::string>`. -/

/-- The `std::type_index` key space of the instantiation: one tag per
element type in the visitor's type list. -/
inductive element_kind where
  | int_leaf
  | string_leaf
deriving DecidableEq

/-- An element value of one of the registered kinds. -/
inductive velement where
  | int_leaf (v : Int)
  | string_leaf (s : String)

/-- `std::type_index(typeid(element))`: the dynamic kind of an element. -/
def kind_of : velement → element_kind
  | .int_leaf _ => .int_leaf
  | .string_leaf _ => .string_leaf

/-- `variant_visitor` (modern_visitor.hpp lines 21-100): an
`unordered_map<type_index, function>` of handlers, modelled as a partial
map from kinds to stored handler functions.  The stored `std::function`
returns `void`; `ρ` stands for the observable effect of running a handler. -/
structure variant_visitor (ρ : Type) where
  visitors : element_kind → Option (velement → Except String ρ)

/-- `variant_visitor::register_visitor_for_type` (modern_visitor.hpp lines
44-60): stores under the element type's key a wrapper that re-checks the
dynamic type of the variant it is given — on a match it calls the
registered function, otherwise it throws `"Type mismatch in visitor"`. -/
def register_visitor_for_type {ρ : Type} (vv : variant_visitor ρ)
    (k : element_kind) (h : velement → ρ) : variant_visitor ρ :=
  ⟨fun k' =>
    if k' = k then
      some (fun e =>
        if kind_of e = k then .ok (h e) else .error "Type mismatch in visitor")
    else vv.visitors k'⟩

/-- `variant_visitor::visit` (modern_visitor.hpp lines 63-77): look the
element's dynamic type up in the registry; if a handler is found invoke it
on the element, otherwise throw
`"No visitor registered for this type"`. -/
def vv_visit {ρ : Type} (vv : variant_visitor ρ) (e : velement) : Except String ρ :=
  match vv.visitors (kind_of e) with
  | some f => f e
  | none => .error "No visitor registered for this type"

/-- A freshly constructed `variant_visitor`: no handler registered. -/
def empty_variant_visitor (ρ : Type) : variant_visitor ρ := ⟨fun _ => none⟩

/-- C8: `variant_visitor::visit` on an element whose kind has no registered
handler throws the hard `"No visitor registered for this type"` error —
never a silent skip or a default; on an element whose kind has a stored
handler it invokes exactly that handler; and after
`register_visitor_for_type` for the element's kind, `visit` runs the
registered function on the element. -/
theorem metaloki_C8_dispatch_miss_throws {ρ : Type} (vv : variant_visitor ρ)
    (e : velement) (h : velement → ρ) :
    (vv.visitors (kind_of e) = none →
      vv_visit vv e = .error "No visitor registered for this type")
    ∧ (∀ f, vv.visitors (kind_of e) = some f → vv_visit vv e = f e)
    ∧ vv_visit (register_visitor_for_type vv (kind_of e) h) e = .ok (h e) := by
  refine ⟨?_, ?_, ?_⟩
  · intro hnone
    rw [vv_visit, hnone]
  · intro f hf
    rw [vv_visit, hf]
  · rw [vv_visit, register_visitor_for_type]
    simp

/-- Checks C8 at a concrete input: visiting `int_leaf 42` with the fresh
visitor throws, and after registering a handler for `int_leaf` the handler
runs. -/
theorem metaloki_C8_witness :
    vv_visit (empty_variant_visitor Nat) (velement.int_leaf 42)
      = .error "No visitor registered for this type"
    ∧ vv_visit (register_visitor_for_type (empty_variant_visitor Nat)
        (kind_of (velement.int_leaf 42)) (fun _ => 7)) (velement.int_leaf 42)
      = .ok 7 :=
  ⟨(metaloki_C8_dispatch_miss_throws (empty_variant_visitor Nat)
      (velement.int_leaf 42) (fun _ => 7)).1 rfl,
    (metaloki_C8_dispatch_miss_throws (empty_variant_visitor Nat)
      (velement.int_leaf 42) (fun _ => 7)).2.2⟩

/-! ## The `resource_manager` teardown
(examples/integration/complete_system_example.cpp, lines 23-65). -/

/-- The outcome of invoking one registered cleanup action: the stored
`std::function<void()>` either returns (`ok`) or throws (`error`).  Only
this outcome is observable in the teardown logic, so an action is modelled
by it. -/
def cleanup_action : Type := Except String Unit

/-- The exception an action's invocation records, if any. -/
def action_err : cleanup_action → Option String
  | .ok _ => none
  | .error e => some e

/-- The `for` loop of `cleanup_all` (complete_system_example.cpp lines
40-47): every action is invoked in order; an exception from an action is
caught (`catch (...)`) and pushed onto `cleanup_exceptions_`, and the loop
continues with the remaining actions.  Returns the invoked actions and the
recorded exceptions, both in order. -/
def run_cleanup_loop : List cleanup_action → List cleanup_action × List String
  | [] => ([], [])
  | a :: rest =>
      let p := run_cleanup_loop rest
      match a with
      | .ok _ => (a :: p.1, p.2)
      | .error e => (a :: p.1, e :: p.2)

/-- The `resource_manager` state: registered cleanup actions and recorded
cleanup exceptions (complete_system_example.cpp lines 25-27). -/
structure resource_manager where
  cleanup_actions : List cleanup_action
  cleanup_exceptions : List String

/-- `resource_manager::cleanup_all` (complete_system_example.cpp lines
37-56): clear the recorded exceptions, run every action catching and
recording failures, clear the action list, and finally — only if failures
were recorded — throw one summary `runtime_error` carrying their count. -/
def cleanup_all (m : resource_manager) : resource_manager × Except String Unit :=
  let errs := (run_cleanup_loop m.cleanup_actions).2
  let m' : resource_manager := ⟨[], errs⟩
  if errs.isEmpty then (m', .ok ())
  else (m', .error ("Cleanup failed with " ++ toString errs.length ++ " errors"))

/-- `resource_manager::~resource_manager` (complete_system_example.cpp lines
58-64): run `cleanup_all` inside `try { ... } catch (...) {}` — any
exception it throws is suppressed, so nothing ever propagates out of the
destructor. -/
def resource_manager_dtor (m : resource_manager) : resource_manager × Except String Unit :=
  ((cleanup_all m).1, .ok ())

/-- C9: teardown runs every registered cleanup action even when earlier ones
fail — the invoked list is the whole action list and every failure is caught
and recorded, in order, instead of aborting the loop; a direct `cleanup_all`
call re-raises the collected failures as a single error exactly when there
was at least one, after clearing the action list; and the destructor's
teardown suppresses the failures — it never lets an exception propagate. -/
theorem metaloki_C9_teardown_runs_all (m : resource_manager) :
    (run_cleanup_loop m.cleanup_actions).1 = m.cleanup_actions
    ∧ (run_cleanup_loop m.cleanup_actions).2
        = m.cleanup_actions.filterMap action_err
    ∧ ((∃ e, (cleanup_all m).2 = .error e) ↔
        m.cleanup_actions.filterMap action_err ≠ [])
    ∧ (cleanup_all m).1.cleanup_actions = []
    ∧ (resource_manager_dtor m).2 = .ok () := by
  have hloop : ∀ l : List cleanup_action,
      (run_cleanup_loop l).1 = l ∧ (run_cleanup_loop l).2 = l.filterMap action_err := by
    intro l
    induction l with
    | nil => simp [run_cleanup_loop]
    | cons a rest ih =>
        cases a with
        | ok u => simp [run_cleanup_loop, action_err, ih.1, ih.2]
        | error e => simp [run_cleanup_loop, action_err, ih.1, ih.2]
  refine ⟨(hloop m.cleanup_actions).1, (hloop m.cleanup_actions).2, ?_, ?_, rfl⟩
  · by_cases he : (run_cleanup_loop m.cleanup_actions).2.isEmpty
    · have he' := List.isEmpty_iff.mp he
      rw [(hloop m.cleanup_actions).2] at he'
      simp [cleanup_all, he, he']
    · have he' : (run_cleanup_loop m.cleanup_actions).2 ≠ [] := by
        intro hc
        rw [hc] at he
        simp at he
      rw [(hloop m.cleanup_actions).2] at he'
      simp [cleanup_all, he, he']
  · by_cases he : (run_cleanup_loop m.cleanup_actions).2.isEmpty <;>
      simp [cleanup_all, he]

/-! ## Deep copy and storage independence (C7)

`composite::clone_impl` (composite.hpp lines 145-149) builds a fresh
composite and copies `children_` — a `std::vector<std::variant<...>>` copy
that recursively copy-constructs every nested leaf and composite into fresh
storage; `leaf::clone_impl` (lines 76-78) copies the value into a fresh
leaf.  To state that the clone's storage is disjoint from the original's we
make the object graph explicit: every node object occupies one addressed
storage cell, a composite cell holding the addresses of its child objects;
allocation appends at the end of the store. -/

/-- One storage cell: a `leaf<int>` object, or a `composite` object whose
vector buffer holds its children's addresses. -/
inductive cell where
  | leafCell (value : Int)
  | compCell (name : String) (children : List Nat)

/-- A store of node objects, addressed by position; fresh objects are
allocated at the end. -/
abbrev store := List cell

/-- The child addresses a cell refers to. -/
def cell_children : cell → List Nat
  | .leafCell _ => []
  | .compCell _ cs => cs

theorem store_get_lt {s : store} {a : Nat} {c : cell}
    (h : s[a]? = some c) : a < s.length := by
  obtain ⟨h1, -⟩ := List.getElem?_eq_some.mp h
  exact h1

theorem store_get_append {s ext : store} {a : Nat} {c : cell}
    (h : s[a]? = some c) : (s ++ ext)[a]? = some c := by
  have ha := store_get_lt h
  rw [List.getElem?_append]
  simp [ha, h]

theorem store_get_concat (s : store) (c : cell) :
    (s ++ [c])[s.length]? = some c := by
  rw [List.getElem?_append]
  simp

theorem store_get_set_ne {s : store} {a b : Nat} {c : cell} (c' : cell)
    (hne : b ≠ a) (h : s[a]? = some c) : (s.set b c')[a]? = some c := by
  rw [List.getElem?_set_ne hne]
  exact h

mutual
/-- The object at address `a` of store `s` is (the representation of) the
tree `t`: a leaf cell with the same value, or a composite cell with the same
name whose child addresses represent the child subtrees in order. -/
inductive represents : store → Nat → Node → Prop where
  | leaf {s : store} {a : Nat} {v : Int} :
      s[a]? = some (.leafCell v) → represents s a (.leaf v)
  | comp {s : store} {a : Nat} {n : String} {cs : List Nat} {ts : List Node} :
      s[a]? = some (.compCell n cs) → represents_list s cs ts →
      represents s a (.composite n ts)
/-- The addresses `cs` represent the subtrees `ts`, pointwise in order. -/
inductive represents_list : store → List Nat → List Node → Prop where
  | nil {s : store} : represents_list s [] []
  | cons {s : store} {a : Nat} {cs : List Nat} {t : Node} {ts : List Node} :
      represents s a t → represents_list s cs ts →
      represents_list s (a :: cs) (t :: ts)
end

mutual
/-- `clone_impl`: write a fresh deep copy of the subtree `t` into the store
— children are copy-constructed first (recursively, into fresh cells), then
the node's own fresh cell referencing them is allocated.  Returns the grown
store and the address of the copy's root. -/
def clone_write (s : store) : Node → store × Nat
  | .leaf v => (s ++ [.leafCell v], s.length)
  | .composite n cs =>
      let p := clone_write_list s cs
      (p.1 ++ [.compCell n p.2], p.1.length)
/-- The recursive copy of a child list (`clone->children_ = children_`):
each child is deep-copied left to right into fresh cells. -/
def clone_write_list (s : store) : List Node → store × List Nat
  | [] => (s, [])
  | c :: cs =>
      let p := clone_write s c
      let q := clone_write_list p.1 cs
      (q.1, p.2 :: q.2)
end

mutual
theorem clone_write_grows : ∀ (t : Node) (s : store),
    ∃ ext, (clone_write s t).1 = s ++ ext
  | .leaf v, s => ⟨[.leafCell v], rfl⟩
  | .composite n cs, s => by
      obtain ⟨ext, hext⟩ := clone_write_list_grows cs s
      exact ⟨ext ++ [.compCell n (clone_write_list s cs).2], by
        simp [clone_write, hext]⟩
theorem clone_write_list_grows : ∀ (cs : List Node) (s : store),
    ∃ ext, (clone_write_list s cs).1 = s ++ ext
  | [], s => ⟨[], by simp [clone_write_list]⟩
  | c :: cs, s => by
      obtain ⟨ext1, h1⟩ := clone_write_grows c s
      obtain ⟨ext2, h2⟩ := clone_write_list_grows cs (clone_write s c).1
      refine ⟨ext1 ++ ext2, ?_⟩
      show (clone_write_list (clone_write s c).1 cs).1 = s ++ (ext1 ++ ext2)
      rw [h2, h1, List.append_assoc]
end

theorem clone_write_length_le (t : Node) (s : store) :
    s.length ≤ (clone_write s t).1.length := by
  obtain ⟨ext, hext⟩ := clone_write_grows t s
  simp [hext]

theorem clone_write_list_length_le (cs : List Node) (s : store) :
    s.length ≤ (clone_write_list s cs).1.length := by
  obtain ⟨ext, hext⟩ := clone_write_list_grows cs s
  simp [hext]

mutual
theorem represents_append : ∀ (t : Node) (s ext : store) (a : Nat),
    represents s a t → represents (s ++ ext) a t
  | .leaf v, s, ext, a, h => by
      cases h with
      | leaf hget => exact represents.leaf (store_get_append hget)
  | .composite n ts, s, ext, a, h => by
      cases h with
      | comp hget hlist =>
          exact represents.comp (store_get_append hget)
            (represents_list_append ts s ext _ hlist)
theorem represents_list_append : ∀ (ts : List Node) (s ext : store) (cs : List Nat),
    represents_list s cs ts → represents_list (s ++ ext) cs ts
  | [], s, ext, cs, h => by
      cases h with
      | nil => exact represents_list.nil
  | t :: ts, s, ext, cs, h => by
      cases h with
      | cons h1 h2 =>
          exact represents_list.cons (represents_append t s ext _ h1)
            (represents_list_append ts s ext _ h2)
end

theorem represents_extend {t : Node} {s s' : store} {a : Nat}
    (hext : ∃ ext, s' = s ++ ext) (h : represents s a t) : represents s' a t := by
  obtain ⟨ext, rfl⟩ := hext
  exact represents_append t s ext a h

theorem represents_list_extend {ts : List Node} {s s' : store} {cs : List Nat}
    (hext : ∃ ext, s' = s ++ ext) (h : represents_list s cs ts) :
    represents_list s' cs ts := by
  obtain ⟨ext, rfl⟩ := hext
  exact represents_list_append ts s ext cs h

mutual
/-- The written copy represents the copied tree: identical shape, names and
leaf values. -/
theorem clone_write_represents : ∀ (t : Node) (s : store),
    represents (clone_write s t).1 (clone_write s t).2 t
  | .leaf v, s => represents.leaf (store_get_concat s (.leafCell v))
  | .composite n cs, s => by
      have hl := clone_write_list_represents cs s
      exact represents.comp
        (store_get_concat (clone_write_list s cs).1 (.compCell n (clone_write_list s cs).2))
        (represents_list_extend ⟨[.compCell n (clone_write_list s cs).2], rfl⟩ hl)
theorem clone_write_list_represents : ∀ (cs : List Node) (s : store),
    represents_list (clone_write_list s cs).1 (clone_write_list s cs).2 cs
  | [], s => represents_list.nil
  | c :: cs, s => by
      have h1 := clone_write_represents c s
      have h2 := clone_write_list_represents cs (clone_write s c).1
      exact represents_list.cons
        (represents_extend (clone_write_list_grows cs (clone_write s c).1) h1) h2
end

theorem clone_write_root_ge (t : Node) (s : store) :
    s.length ≤ (clone_write s t).2 := by
  cases t with
  | leaf v => simp [clone_write]
  | composite n cs =>
      simp only [clone_write]
      exact clone_write_list_length_le cs s

theorem clone_write_list_addrs_ge : ∀ (cs : List Node) (s : store),
    ∀ x ∈ (clone_write_list s cs).2, s.length ≤ x
  | [], s => by simp [clone_write_list]
  | c :: cs, s => by
      intro x hx
      simp only [clone_write_list, List.mem_cons] at hx
      rcases hx with hx | hx
      · subst hx
        exact clone_write_root_ge c s
      · have := clone_write_list_addrs_ge cs (clone_write s c).1 x hx
        have hle := clone_write_length_le c s
        omega

/-- Every cell at address `≥ k` refers only to addresses `≥ k`: the region
from `k` on is self-contained. -/
def closed_above (s : store) (k : Nat) : Prop :=
  ∀ (a : Nat) (c : cell), k ≤ a → s[a]? = some c → ∀ x ∈ cell_children c, k ≤ x

theorem closed_above_self (s : store) : closed_above s s.length := by
  intro a c hk hget
  have := store_get_lt hget
  omega

theorem closed_above_concat {s : store} {k : Nat} {c : cell}
    (hs : closed_above s k) (hc : ∀ x ∈ cell_children c, k ≤ x) :
    closed_above (s ++ [c]) k := by
  intro a c0 hk hget x hx
  by_cases ha : a < s.length
  · rw [List.getElem?_append] at hget
    simp only [ha, if_true] at hget
    exact hs a c0 hk hget x hx
  · rw [List.getElem?_append] at hget
    simp only [ha, if_false] at hget
    have ha2 := store_get_lt hget
    simp at ha2
    have : a - s.length = 0 := by omega
    rw [this] at hget
    simp at hget
    subst hget
    exact hc x hx

mutual
theorem clone_write_closed : ∀ (t : Node) (s : store) (k : Nat),
    k ≤ s.length → closed_above s k → closed_above (clone_write s t).1 k
  | .leaf v, s, k, hk, hs => by
      simpa [clone_write] using
        closed_above_concat hs (by simp [cell_children])
  | .composite n cs, s, k, hk, hs => by
      have hp := clone_write_list_closed cs s k hk hs
      simp only [clone_write]
      refine closed_above_concat hp ?_
      intro x hx
      simp only [cell_children] at hx
      have := clone_write_list_addrs_ge cs s x hx
      omega
theorem clone_write_list_closed : ∀ (cs : List Node) (s : store) (k : Nat),
    k ≤ s.length → closed_above s k → closed_above (clone_write_list s cs).1 k
  | [], s, k, hk, hs => by simpa [clone_write_list] using hs
  | c :: cs, s, k, hk, hs => by
      have h1 := clone_write_closed c s k hk hs
      have hlen := clone_write_length_le c s
      simpa [clone_write_list] using
        clone_write_list_closed cs (clone_write s c).1 k (by omega) h1
end

mutual
/-- A representation living entirely at addresses `≥ k` in a region closed
above `k` survives any write at an address `< k`. -/
theorem represents_set_low : ∀ (t : Node) (s : store) (a k b : Nat) (c' : cell),
    represents s a t → k ≤ a → closed_above s k → b < k →
    represents (s.set b c') a t
  | .leaf v, s, a, k, b, c', h, hka, hcl, hb => by
      cases h with
      | leaf hget =>
          exact represents.leaf (store_get_set_ne c' (by omega) hget)
  | .composite n ts, s, a, k, b, c', h, hka, hcl, hb => by
      cases h with
      | comp hget hlist =>
          refine represents.comp (store_get_set_ne c' (by omega) hget) ?_
          refine represents_list_set_low ts s _ k b c' hlist ?_ hcl hb
          intro x hx
          exact hcl a _ hka hget x (by simpa [cell_children] using hx)
theorem represents_list_set_low : ∀ (ts : List Node) (s : store) (cs : List Nat)
    (k b : Nat) (c' : cell),
    represents_list s cs ts → (∀ x ∈ cs, k ≤ x) → closed_above s k → b < k →
    represents_list (s.set b c') cs ts
  | [], s, cs, k, b, c', h, hcs, hcl, hb => by
      cases h with
      | nil => exact represents_list.nil
  | t :: ts, s, cs, k, b, c', h, hcs, hcl, hb => by
      cases h with
      | cons h1 h2 =>
          exact represents_list.cons
            (represents_set_low t s _ k b c' h1 (hcs _ (List.mem_cons_self _ _)) hcl hb)
            (represents_list_set_low ts s _ k b c' h2
              (fun x hx => hcs x (List.mem_cons_of_mem _ hx)) hcl hb)
end

/-- A representation living in the original region `s` survives any write at
an address beyond `s` (in particular anywhere inside a freshly appended
clone). -/
theorem represents_set_high (t : Node) (s ext : store) (a b : Nat) (c' : cell)
    (h : represents s a t) (hb : s.length ≤ b) :
    represents ((s ++ ext).set b c') a t := by
  rw [List.set_append_right b c' hb]
  exact represents_append t s _ a h

/-- C7: `clone()` is a deep copy with fully independent storage.  Given a
tree `t` represented at address `a` of store `s`, writing a clone of `t`
yields (1) a copy with identical shape, names and leaf values, (2) at a
freshly allocated root address, such that (3) overwriting any cell of the
clone's region — changing a leaf value, or replacing a composite cell's
child list to add or remove children — leaves the original's representation
intact, and (4) overwriting any cell of the original's region leaves the
clone's representation intact. -/
theorem metaloki_C7_clone_independent (s : store) (a : Nat) (t : Node)
    (h : represents s a t) :
    represents (clone_write s t).1 (clone_write s t).2 t
    ∧ s.length ≤ (clone_write s t).2
    ∧ (∀ (b : Nat) (c' : cell), s.length ≤ b →
        represents ((clone_write s t).1.set b c') a t)
    ∧ (∀ (b : Nat) (c' : cell), b < s.length →
        represents ((clone_write s t).1.set b c') (clone_write s t).2 t) := by
  refine ⟨clone_write_represents t s, clone_write_root_ge t s, ?_, ?_⟩
  · intro b c' hb
    obtain ⟨ext, hext⟩ := clone_write_grows t s
    rw [hext]
    exact represents_set_high t s ext a b c' h hb
  · intro b c' hb
    exact represents_set_low t (clone_write s t).1 (clone_write s t).2 s.length b c'
      (clone_write_represents t s) (clone_write_root_ge t s)
      (clone_write_closed t s s.length (le_refl _) (closed_above_self s)) hb

/-- Checks C7 at a concrete input: the tree `Composite "W" [leaf 5]` stored
at address 1 of the two-cell store `[leafCell 5, compCell "W" [0]]`; its
clone occupies the two fresh cells and still represents the tree. -/
theorem metaloki_C7_witness :
    represents [cell.leafCell 5, cell.compCell "W" [0]] 1
      (Node.composite "W" [Node.leaf 5])
    ∧ represents
        (clone_write [cell.leafCell 5, cell.compCell "W" [0]]
          (Node.composite "W" [Node.leaf 5])).1
        (clone_write [cell.leafCell 5, cell.compCell "W" [0]]
          (Node.composite "W" [Node.leaf 5])).2
        (Node.composite "W" [Node.leaf 5]) :=
  have h : represents [cell.leafCell 5, cell.compCell "W" [0]] 1
      (Node.composite "W" [Node.leaf 5]) :=
    represents.comp rfl
      (represents_list.cons (represents.leaf rfl) represents_list.nil)
  ⟨h, (metaloki_C7_clone_independent [cell.leafCell 5, cell.compCell "W" [0]]
      1 (Node.composite "W" [Node.leaf 5]) h).1⟩

end MetaLoki
